import Mathlib

/-!
Verification of the `angles` library (angles.py): angle normalization,
sexagesimal conversion, sexagesimal string formatting, and spherical
geometry (separation and bearing) on a unit sphere.

Numeric values are embedded as exact rationals (`ℚ`) where the Python code
computes with floats and no transcendental constants occur, and as reals
(`ℝ`) where `math.pi`, `cos`, `sin`, `sqrt` and `atan2` are involved.
Functions that can raise `ValueError` return `Except String _`.
-/

namespace Angles

/-- Python float modulo `a % m`: result has the sign of the divisor,
`a % m = a - m * floor (a / m)` for `m ≠ 0`. -/
def pymod {K : Type} [LinearOrderedField K] [FloorRing K] (a m : K) : K :=
  a - m * ⌊a / m⌋

/-- Python `round(q, 0)` (banker's rounding, i.e. round half to even),
as used by `deci2sexa` for the seconds part and by `%f`-style formatting. -/
def pyround {K : Type} [LinearOrderedField K] [FloorRing K] (q : K) : ℤ :=
  let f := ⌊q⌋
  let r := q - (f : K)
  if r < 1 / 2 then f
  else if 1 / 2 < r then f + 1
  else if f % 2 = 0 then f else f + 1

/-- The `not b` (wraparound) branch of `angles.normalize` (angles.py lines
214-220), after the `lower >= upper` check has passed:
`if num > upper or num == lower: num = lower + abs(num + upper) % (abs(lower) + abs(upper))`;
`if num < lower or num == upper: num = upper - abs(num - lower) % (abs(lower) + abs(upper))`;
`res = lower if num == upper else num`. -/
def wrapNorm {K : Type} [LinearOrderedField K] [FloorRing K]
    (num lower upper : K) : K :=
  let num1 := if num > upper ∨ num = lower
              then lower + pymod |num + upper| (|lower| + |upper|) else num
  let num2 := if num1 < lower ∨ num1 = upper
              then upper - pymod |num1 - lower| (|lower| + |upper|) else num1
  if num2 = upper then lower else num2

/-- The `b == True` (bounce) branch of `angles.normalize` (angles.py lines
222-232): `total_length = abs(lower) + abs(upper)`;
`if num < -total_length: num += ceil(num / (-2 * total_length)) * 2 * total_length`;
`if num > total_length: num -= floor(num / (2 * total_length)) * 2 * total_length`;
`if num > upper: num = total_length - num`;
`if num < lower: num = -total_length - num`. Note that this branch performs
no check on `lower` and `upper` at all. -/
def bounceNorm {K : Type} [LinearOrderedField K] [FloorRing K]
    (num lower upper : K) : K :=
  let total_length := |lower| + |upper|
  let n1 := if num < -total_length
            then num + (⌈num / (-2 * total_length)⌉ : K) * 2 * total_length
            else num
  let n2 := if n1 > total_length
            then n1 - (⌊n1 / (2 * total_length)⌋ : K) * 2 * total_length
            else n1
  let n3 := if n2 > upper then total_length - n2 else n2
  if n3 < lower then -total_length - n3 else n3

/-- `angles.normalize(num, lower, upper, b)`. In the source the
`ValueError` for `lower >= upper` is raised only inside the `not b`
branch; the `b == True` branch never raises. -/
def normalize {K : Type} [LinearOrderedField K] [FloorRing K]
    (num lower upper : K) (b : Bool) : Except String K :=
  match b with
  | false =>
    if lower ≥ upper then
      .error "Invalid lower and upper limits"
    else
      .ok (wrapNorm num lower upper)
  | true => .ok (bounceNorm num lower upper)

/-- `angles.h2d`: hours to degrees, `h * 15.0`. -/
def h2d {K : Type} [LinearOrderedField K] (h : K) : K := h * 15

/-- `angles.d2h`: degrees to hours, `d * (24.0 / 360.0)`. -/
def d2h {K : Type} [LinearOrderedField K] (d : K) : K := d * (24 / 360)

/-- `angles.deci2sexa(deci, pre, trunc, lower, upper, b, upper_trim)`:
decimal number to sexagesimal tuple `(sign, first, second, third)`.
Mirrors angles.py lines 346-388: optional normalization, sign/magnitude
split, two `divmod` steps, rounding (Python `round`, half to even) or
truncation of the seconds part at `pre` decimal places, the two carry
steps, the `upper_trim` replacement of the first part (which in the
source may overwrite the integer `hd` with the given `lower`, hence the
second component of the result is a `ℚ`), and the forcing of `sign` to
`1` when all three parts are zero. -/
def deci2sexa (deci : ℚ) (pre : ℤ) (trunc : Bool) (lower upper : Option ℚ)
    (b : Bool) (upper_trim : Bool) : Except String (ℤ × ℚ × ℤ × ℚ) :=
  let normed : Except String ℚ :=
    match lower, upper with
    | some l, some u => normalize deci l u b
    | _, _ => .ok deci
  match normed with
  | .error e => .error e
  | .ok deci =>
    let sign : ℤ := if deci < 0 then -1 else 1
    let deci : ℚ := if deci < 0 then |deci| else deci
    let hd : ℤ := ⌊deci⌋
    let f1 : ℚ := deci - hd
    let mm : ℤ := ⌊f1 * 60⌋
    let f2 : ℚ := f1 * 60 - mm
    let sf : ℚ := f2 * 60
    let fp : ℚ := 10 ^ pre
    let ss : ℤ := if trunc then ⌊sf * fp⌋ else pyround (sf * fp)
    let mm2 : ℤ := if (ss : ℚ) = 60 * fp then mm + 1 else mm
    let ss2 : ℤ := if (ss : ℚ) = 60 * fp then 0 else ss
    let hd2 : ℤ := if mm2 = 60 then hd + 1 else hd
    let mm3 : ℤ := if mm2 = 60 then 0 else mm2
    let hd3 : ℚ :=
      match lower, upper, upper_trim with
      | some l, some u, true => if (hd2 : ℚ) = u then l else (hd2 : ℚ)
      | _, _, _ => (hd2 : ℚ)
    let sign2 : ℤ := if hd3 = 0 ∧ mm3 = 0 ∧ ss2 = 0 then 1 else sign
    .ok (sign2, hd3, mm3, (ss2 : ℚ) / fp)

/-- Zero-padding of a rendered number to field width `w`, as done by a
Python format spec `{:0Nd}` or `{:0N.Pf}`. -/
def padZeros (s : String) (w : ℕ) : String :=
  if s.length < w then String.mk (List.replicate (w - s.length) '0') ++ s else s

/-- Python `"{:0wd}".format n` for an integer `n` (zeros go between the
sign and the digits). -/
def fmtInt (n : ℤ) (w : ℕ) : String :=
  if n < 0 then "-" ++ padZeros (toString n.natAbs) (w - 1)
  else padZeros (toString n.natAbs) w

/-- Python `"{:0w.pf}".format q`: fixed-point rendering of `q` with `p`
fractional digits (rounded half to even), zero-padded to total width `w`;
with `p = 0` no decimal point is printed. -/
def fmtFixed (q : ℚ) (w p : ℕ) : String :=
  let n : ℤ := pyround (q * 10 ^ p)
  let a : ℕ := n.natAbs
  let body : String :=
    if p = 0 then toString a
    else toString (a / 10 ^ p) ++ "." ++ padZeros (toString (a % 10 ^ p)) p
  if n < 0 then "-" ++ padZeros body (w - 1) else padZeros body w

/-- `angles.sexa2deci(sign, hd, mm, ss, todeg)`: combine sexagesimal
components, `sign * (hd / 1.0 + mm / 60.0 + ss / 3600.0)`, optionally
converted from hours to degrees; raises if `sign` is not `±1`. -/
def sexa2deci (sign : ℤ) (hd mm ss : ℚ) (todeg : Bool) : Except String ℚ :=
  if sign = -1 ∨ sign = 1 then
    let d := hd / 1 + mm / 60 + ss / 3600
    let d2 := d * (sign : ℚ)
    .ok (if todeg then h2d d2 else d2)
  else
    .error "Sign has to be -1 or 1."

/-- `angles.fmt_angle(val, s1, s2, s3, pre, trunc, lower, upper, b,
upper_trim)`: sexagesimal string of an angle, angles.py lines 528-541.
The rendering template is
`sign ++ {1:02d} ++ s1 ++ {2:02d} ++ s2 ++ {3:0(pre+3).(pre)f} ++ s3`.
Note the source does not forward `b` to `deci2sexa` (so that inner
normalization always runs with `b=False`), and it formats the first part
with `d`, which requires it to be an integer. -/
def fmt_angle (val : ℚ) (s1 s2 s3 : String) (pre : ℤ) (trunc : Bool)
    (lower upper : Option ℚ) (b : Bool) (upper_trim : Bool) :
    Except String String :=
  let normed : Except String ℚ :=
    match lower, upper with
    | some l, some u => normalize val l u b
    | _, _ => .ok val
  match normed with
  | .error e => .error e
  | .ok n =>
    match deci2sexa n pre trunc lower upper false upper_trim with
    | .error e => .error e
    | .ok (sgn, hd, mm, ss) =>
      .ok ((if sgn < 0 then "-" else "+") ++ fmtInt ⌊hd⌋ 2 ++ s1 ++
           fmtInt mm 2 ++ s2 ++ fmtFixed ss (pre + 3).toNat pre.toNat ++ s3)

/-! ### Radian conversions, angle classes, vectors and spherical geometry -/

/-- `angles.d2r`: degrees to radians (`math.radians`). -/
noncomputable def d2r (d : ℝ) : ℝ := d * Real.pi / 180

/-- `angles.r2d`: radians to degrees (`math.degrees`). -/
noncomputable def r2d (r : ℝ) : ℝ := r * 180 / Real.pi

/-- `angles.r2r`: normalize an angle in radians to `[0, 2π)` by
wraparound. -/
noncomputable def r2r (r : ℝ) : Except String ℝ :=
  normalize r 0 (2 * Real.pi) false

/-- `AlphaAngle._setnorm`: the single mutator through which every
assignment to an `AlphaAngle` passes (construction and the `r`, `d`,
`h`, `arcs` and `hms` setters all call it with the radian value); it
stores `r2r(val)`. -/
noncomputable def AlphaAngle_setnorm (val : ℝ) : Except String ℝ := r2r val

/-- `DeltaAngle._setnorm`: the single mutator through which every
assignment to a `DeltaAngle` passes; it stores
`normalize(val, lower=-90, upper=90, b=True)` where `val` is the radian
value while `-90` and `90` are the degree bounds. -/
noncomputable def DeltaAngle_setnorm (val : ℝ) : Except String ℝ :=
  normalize val (-90) 90 true

/-- `angles.CartesianVector`: a 3D Cartesian vector. -/
structure CartesianVector where
  x : ℝ
  y : ℝ
  z : ℝ

/-- `CartesianVector.dot`: dot product of two vectors. -/
def CartesianVector.dot (self v : CartesianVector) : ℝ :=
  self.x * v.x + self.y * v.y + self.z * v.z

/-- `CartesianVector.cross`: cross product of two vectors. -/
def CartesianVector.cross (self v : CartesianVector) : CartesianVector :=
  { x := self.y * v.z - self.z * v.y
    y := -(self.x * v.z - self.z * v.x)
    z := self.x * v.y - self.y * v.x }

/-- `CartesianVector.mod`: modulus (Euclidean norm) of a vector. -/
noncomputable def CartesianVector.mod (self : CartesianVector) : ℝ :=
  Real.sqrt (self.x ^ 2 + self.y ^ 2 + self.z ^ 2)

/-- `CartesianVector.from_s(r, alpha, delta)`: Cartesian vector from
spherical coordinates, angles in radians, latitude measured from the
equatorial plane. -/
noncomputable def CartesianVector.from_s (r alpha delta : ℝ) : CartesianVector :=
  { x := r * Real.cos delta * Real.cos alpha
    y := r * Real.cos delta * Real.sin alpha
    z := r * Real.sin delta }

/-- Python `math.atan2 y x`, embedded as the argument of the complex
number `x + i y`: both have range `(-π, π]`, agree on all four
quadrants and both axes, and both map `(0, 0)` to `0`. -/
noncomputable def atan2 (y x : ℝ) : ℝ := Complex.arg ⟨x, y⟩

/-- `angles.sep(a1, b1, a2, b2)`: great-circle angular separation of two
points on the unit sphere, via `atan2` of the cross-product magnitude
and the dot product, with zero-snapping at tolerance `1e-15`. -/
noncomputable def sep (a1 b1 a2 b2 : ℝ) : ℝ :=
  let v := CartesianVector.from_s 1 a1 b1
  let v2 := CartesianVector.from_s 1 a2 b2
  let d := v.dot v2
  let c := (v.cross v2).mod
  let res := atan2 c d
  if |res| < 1 / 10 ^ 15 then 0 else res

/-- `angles.bear(a1, b1, a2, b2)`: bearing (position angle) of the
second point from the first. The Boolean of the returned pair records
whether the `warnings.warn` call for an undefined bearing (first point
on the pole) was made; the real number is the returned value. -/
noncomputable def bear (a1 b1 a2 b2 : ℝ) : Bool × ℝ :=
  let v1 := CartesianVector.from_s 1 a1 b1
  let v2 := CartesianVector.from_s 1 a2 b2
  let v0 := CartesianVector.from_s 1 0 (d2r 90)
  if |(v1.cross v0).mod| < 1 / 10 ^ 15 then (true, 0)
  else
    let v12 := v1.cross v2
    let v10 := v1.cross v0
    let dt := v12.dot v10
    let cr := (v12.cross v10).mod
    let x0 := atan2 cr dt
    let x1 := if v12.z < 0 then -x0 else x0
    (false, if |x1| < 1 / 10 ^ 15 then 0 else x1)

section NormalizeLemmas

variable {K : Type} [LinearOrderedField K] [FloorRing K]

/-- Python `%` with a positive divisor is nonnegative. -/
theorem pymod_nonneg (a : K) {m : K} (hm : 0 < m) : 0 ≤ pymod a m := by
  have h1 : ((⌊a / m⌋ : K)) ≤ a / m := Int.floor_le _
  have h2 : m * ((⌊a / m⌋ : K)) ≤ m * (a / m) :=
    mul_le_mul_of_nonneg_left h1 hm.le
  have h3 : m * (a / m) = a := by field_simp
  rw [h3] at h2
  simp only [pymod]
  linarith

/-- Python `%` with a positive divisor is below the divisor. -/
theorem pymod_lt (a : K) {m : K} (hm : 0 < m) : pymod a m < m := by
  have h1 : a / m < (⌊a / m⌋ : K) + 1 := Int.lt_floor_add_one _
  have h2 : m * (a / m) < m * ((⌊a / m⌋ : K) + 1) :=
    mul_lt_mul_of_pos_left h1 hm
  have h3 : m * (a / m) = a := by field_simp
  rw [h3] at h2
  have h4 : m * ((⌊a / m⌋ : K) + 1) = m * (⌊a / m⌋ : K) + m := by ring
  simp only [pymod]
  linarith

/-- Banker's rounding moves a value by at most one half. -/
theorem pyround_sub_abs_le (q : K) : |((pyround q : ℤ) : K) - q| ≤ 1 / 2 := by
  have h1 : ((⌊q⌋ : K)) ≤ q := Int.floor_le q
  have h2 : q < (⌊q⌋ : K) + 1 := Int.lt_floor_add_one q
  simp only [pyround]
  by_cases hr1 : q - (⌊q⌋ : K) < 1 / 2
  · rw [if_pos hr1, abs_le]
    constructor <;> linarith
  · rw [if_neg hr1]
    by_cases hr2 : (1 : K) / 2 < q - (⌊q⌋ : K)
    · rw [if_pos hr2, abs_le]
      push_cast
      constructor <;> linarith
    · rw [if_neg hr2]
      by_cases hev : ⌊q⌋ % 2 = 0
      · rw [if_pos hev, abs_le]
        constructor <;> linarith
      · rw [if_neg hev, abs_le]
        push_cast
        constructor <;> linarith

/-- Range membership for the wraparound branch: whenever the bounds
straddle zero (`lower ≤ 0 ≤ upper`), the modulus `abs lower + abs upper`
used by the source equals the range size and the result lands in the
half-open range. -/
theorem wrapNorm_mem (v L U : K) (hL : L ≤ 0) (hU : 0 ≤ U) (hLU : L < U) :
    L ≤ wrapNorm v L U ∧ wrapNorm v L U < U := by
  have hM : |L| + |U| = U - L := by
    rw [abs_of_nonpos hL, abs_of_nonneg hU]; ring
  have hM0 : (0 : K) < |L| + |U| := by rw [hM]; linarith
  simp only [wrapNorm]
  by_cases h1 : v > U ∨ v = L
  · rw [if_pos h1]
    have hp1 := pymod_nonneg |v + U| hM0
    have hp2 := pymod_lt |v + U| hM0
    have hlo : L ≤ L + pymod |v + U| (|L| + |U|) := by linarith
    have hhi : L + pymod |v + U| (|L| + |U|) < U := by linarith
    rw [if_neg (not_or.mpr ⟨not_lt.mpr hlo, ne_of_lt hhi⟩), if_neg (ne_of_lt hhi)]
    exact ⟨hlo, hhi⟩
  · rw [if_neg h1]
    obtain ⟨hvU, hvL⟩ := not_or.mp h1
    by_cases h2 : v < L ∨ v = U
    · rw [if_pos h2]
      have hp1 := pymod_nonneg |v - L| hM0
      have hp2 := pymod_lt |v - L| hM0
      have hlo : L < U - pymod |v - L| (|L| + |U|) := by linarith
      have hhi : U - pymod |v - L| (|L| + |U|) ≤ U := by linarith
      by_cases h3 : U - pymod |v - L| (|L| + |U|) = U
      · rw [if_pos h3]
        exact ⟨le_refl L, hLU⟩
      · rw [if_neg h3]
        exact ⟨hlo.le, lt_of_le_of_ne hhi h3⟩
    · obtain ⟨hvL2, hvU2⟩ := not_or.mp h2
      rw [if_neg h2, if_neg hvU2]
      exact ⟨not_lt.mp hvL2, lt_of_le_of_ne (not_lt.mp hvU) hvU2⟩

/-- Members of the half-open range are fixed points of the wraparound
branch, provided the range is symmetric about zero or starts at zero. -/
theorem wrapNorm_fixed (r L U : K) (hLU : L < U) (hs : L = -U ∨ L = 0)
    (hlo : L ≤ r) (hhi : r < U) : wrapNorm r L U = r := by
  simp only [wrapNorm]
  rcases eq_or_lt_of_le hlo with heq | hlt
  · -- r = L: the first branch fires but adds pymod _ = 0
    have h1 : r > U ∨ r = L := Or.inr heq.symm
    rw [if_pos h1]
    have hpz : pymod |r + U| (|L| + |U|) = 0 := by
      rcases hs with h | h
      · have hr0 : r + U = 0 := by rw [← heq, h]; ring
        rw [hr0, abs_zero]
        simp [pymod]
      · have hU0 : (0 : K) < U := by rw [h] at hLU; exact hLU
        have habs : |r + U| = U := by
          rw [← heq, h, zero_add, abs_of_pos hU0]
        have hm : |L| + |U| = U := by
          rw [h, abs_zero, zero_add, abs_of_pos hU0]
        rw [habs, hm]
        simp [pymod, div_self (ne_of_gt hU0)]
    rw [hpz, add_zero]
    rw [if_neg (not_or.mpr ⟨lt_irrefl L, ne_of_lt hLU⟩), if_neg (ne_of_lt hLU)]
    exact heq
  · -- L < r < U: nothing fires
    rw [if_neg (not_or.mpr ⟨not_lt.mpr hhi.le, hlt.ne'⟩),
        if_neg (not_or.mpr ⟨not_lt.mpr hlt.le, hhi.ne⟩), if_neg hhi.ne]

/-- Range membership for the bounce branch on a range symmetric about
zero: `total_length` is twice the upper bound and the four steps land the
value in the closed range. -/
theorem bounceNorm_mem_symm (v U : K) (hU : 0 < U) :
    -U ≤ bounceNorm v (-U) U ∧ bounceNorm v (-U) U ≤ U := by
  have habs : |(-U : K)| + |U| = 2 * U := by
    rw [abs_neg, abs_of_pos hU]; ring
  simp only [bounceNorm, habs]
  set n1 : K :=
    if v < -(2 * U) then v + (⌈v / (-2 * (2 * U))⌉ : K) * 2 * (2 * U) else v
    with hn1
  have hb1 : -(2 * U) ≤ n1 := by
    rw [hn1]
    by_cases h1 : v < -(2 * U)
    · rw [if_pos h1]
      have hd : (-2 * (2 * U) : K) < 0 := by linarith
      have hveq : (-2 * (2 * U)) * (v / (-2 * (2 * U))) = v := by
        field_simp
      have hc1 : v / (-2 * (2 * U)) ≤ ((⌈v / (-2 * (2 * U))⌉ : ℤ) : K) :=
        Int.le_ceil _
      have hmul := mul_le_mul_of_nonpos_left hc1 hd.le
      rw [hveq] at hmul
      nlinarith [hmul]
    · rw [if_neg h1]
      linarith [not_lt.mp h1]
  set n2 : K :=
    if n1 > 2 * U then n1 - (⌊n1 / (2 * (2 * U))⌋ : K) * 2 * (2 * U) else n1
    with hn2
  have hb2 : -(2 * U) ≤ n2 ∧ n2 < 2 * (2 * U) := by
    rw [hn2]
    by_cases h2 : n1 > 2 * U
    · rw [if_pos h2]
      have hdpos : (0 : K) < 2 * (2 * U) := by linarith
      have hveq : (2 * (2 * U)) * (n1 / (2 * (2 * U))) = n1 := by field_simp
      have hf1 : ((⌊n1 / (2 * (2 * U))⌋ : ℤ) : K) ≤ n1 / (2 * (2 * U)) :=
        Int.floor_le _
      have hf2 : n1 / (2 * (2 * U)) < ((⌊n1 / (2 * (2 * U))⌋ : ℤ) : K) + 1 :=
        Int.lt_floor_add_one _
      have hm1 := mul_le_mul_of_nonneg_left hf1 hdpos.le
      have hm2 := mul_lt_mul_of_pos_left hf2 hdpos
      rw [hveq] at hm1 hm2
      constructor <;> nlinarith [hm1, hm2]
    · rw [if_neg h2]
      exact ⟨hb1, by linarith [not_lt.mp h2]⟩
  obtain ⟨h2lo, h2hi⟩ := hb2
  set n3 : K := if n2 > U then 2 * U - n2 else n2 with hn3
  have hb3 : -(2 * U) ≤ n3 ∧ n3 ≤ U := by
    rw [hn3]
    by_cases h3 : n2 > U
    · rw [if_pos h3]
      constructor <;> linarith
    · rw [if_neg h3]
      exact ⟨h2lo, not_lt.mp h3⟩
  obtain ⟨h3lo, h3hi⟩ := hb3
  by_cases h4 : n3 < -U
  · rw [if_pos h4]
    constructor <;> linarith
  · rw [if_neg h4]
    exact ⟨not_lt.mp h4, h3hi⟩

/-- Members of the closed symmetric range are fixed points of the bounce
branch: none of the four adjustment steps fires. -/
theorem bounceNorm_fixed_symm (r U : K) (hU : 0 < U) (hlo : -U ≤ r)
    (hhi : r ≤ U) : bounceNorm r (-U) U = r := by
  have habs : |(-U : K)| + |U| = 2 * U := by
    rw [abs_neg, abs_of_pos hU]; ring
  simp only [bounceNorm, habs]
  rw [if_neg (not_lt.mpr (by linarith : -(2 * U) ≤ r)),
      if_neg (not_lt.mpr (by linarith : r ≤ 2 * U)),
      if_neg (not_lt.mpr hhi), if_neg (not_lt.mpr hlo)]

/-- The wraparound mode of `normalize` succeeds exactly when
`lower < upper`, returning the wraparound branch value. -/
theorem normalize_false_eq (num L U : K) (h : L < U) :
    normalize num L U false = .ok (wrapNorm num L U) := by
  simp only [normalize]
  rw [if_neg (not_le.mpr h)]

/-- The bounce mode of `normalize` never fails and returns the bounce
branch value, with no check on the bounds at all. -/
theorem normalize_true_eq (num L U : K) :
    normalize num L U true = .ok (bounceNorm num L U) := rfl

end NormalizeLemmas

/-! ### Claims C1, C2, C3: the normalizer -/

/-- C1, counterexample: as stated, range membership fails on the code.
Wraparound with bounds `(10, 20)` maps 25 to 25, outside `[10, 20)`
(the modulus `abs lower + abs upper = 30` is not the range size), and
bounce with the zero-based range `(0, 10)` maps 15 to `-5`, outside
`[0, 10]`. -/
theorem normalize_range_membership_cex :
    normalize (25 : ℚ) 10 20 false = .ok 25 ∧ ¬((25 : ℚ) < 20) ∧
    normalize (15 : ℚ) 0 10 true = .ok (-5) ∧ ¬((0 : ℚ) ≤ -5) := by
  refine ⟨?_, by norm_num, ?_, by norm_num⟩
  · simp only [normalize, wrapNorm, pymod]
    norm_num
  · simp only [normalize, bounceNorm]
    norm_num

/-- C1 (amended): range membership of `normalize`. For wraparound the
result lies in `[lower, upper)` for every range whose bounds straddle
zero (`lower ≤ 0 ≤ upper`, which includes symmetric and zero-based
ranges); for bounce the result lies in `[lower, upper]` for every range
symmetric about zero. For every finite value in both cases. -/
theorem normalize_range_membership (v L U : ℚ) :
    (L ≤ 0 → 0 ≤ U → L < U →
      ∃ r, normalize v L U false = .ok r ∧ L ≤ r ∧ r < U) ∧
    (L = -U → 0 < U →
      ∃ r, normalize v L U true = .ok r ∧ L ≤ r ∧ r ≤ U) := by
  constructor
  · intro hL hU hLU
    exact ⟨wrapNorm v L U, normalize_false_eq v L U hLU,
           (wrapNorm_mem v L U hL hU hLU).1, (wrapNorm_mem v L U hL hU hLU).2⟩
  · intro hL hU
    subst hL
    exact ⟨bounceNorm v (-U) U, normalize_true_eq v (-U) U,
           (bounceNorm_mem_symm v U hU).1, (bounceNorm_mem_symm v U hU).2⟩

/-- C1, witness: both parts of the membership theorem applied at
concrete inputs, wraparound at `normalize 25 0 10` and bounce at
`normalize 25 (-10) 10`. -/
theorem normalize_range_membership_witness :
    (∃ r, normalize (25 : ℚ) 0 10 false = .ok r ∧ 0 ≤ r ∧ r < 10) ∧
    (∃ r, normalize (25 : ℚ) (-10) 10 true = .ok r ∧ -10 ≤ r ∧ r ≤ 10) :=
  ⟨(normalize_range_membership 25 0 10).1 (by decide) (by decide) (by decide),
   (normalize_range_membership 25 (-10) 10).2 (by decide) (by decide)⟩

/-- C2: the `ValueError` for `lower >= upper` is raised only in the
wraparound branch; in bounce mode `normalize` silently returns a value
for invalid bounds. With `lower = 10 ≥ 3 = upper` and `bounce = true`
the source returns `-21.0` instead of raising. -/
theorem normalize_bounce_skips_range_check :
    (10 : ℚ) ≥ 3 ∧ normalize (5 : ℚ) 10 3 true = .ok (-21) := by
  refine ⟨by norm_num, ?_⟩
  simp only [normalize, bounceNorm]
  norm_num

/-- C3, counterexample: idempotence fails on the code for ranges that
are neither symmetric about zero nor zero-based (wraparound, range
`(10, 20)`: `-5` normalizes to 5, but 5 normalizes to 15), and for
bounce on a zero-based range (`(0, 10)`: `-4` normalizes to `-6`, but
`-6` normalizes to `-4`). -/
theorem normalize_idempotent_cex :
    (normalize (-5 : ℚ) 10 20 false = .ok 5 ∧
     normalize (5 : ℚ) 10 20 false = .ok 15 ∧ (5 : ℚ) ≠ 15) ∧
    (normalize (-4 : ℚ) 0 10 true = .ok (-6) ∧
     normalize (-6 : ℚ) 0 10 true = .ok (-4) ∧ (-6 : ℚ) ≠ -4) := by
  refine ⟨⟨?_, ?_, by norm_num⟩, ⟨?_, ?_, by norm_num⟩⟩
  · simp only [normalize, wrapNorm, pymod]
    norm_num
  · simp only [normalize, wrapNorm, pymod]
    norm_num
  · simp only [normalize, bounceNorm]
    norm_num
  · simp only [normalize, bounceNorm]
    norm_num

/-- C3 (amended): idempotence of `normalize`. Normalizing an already
normalized value returns it unchanged, for ranges symmetric about zero
(in both modes) and for zero-based ranges in wraparound mode. -/
theorem normalize_idempotent (v L U : ℚ) (b : Bool)
    (h : (L = -U ∧ 0 < U) ∨ (L = 0 ∧ 0 < U ∧ b = false)) (r : ℚ)
    (hr : normalize v L U b = .ok r) : normalize r L U b = .ok r := by
  rcases h with ⟨hL, hU⟩ | ⟨hL, hU, hb⟩
  · cases b
    · have hL0 : L ≤ 0 := by rw [hL]; linarith
      have hLU : L < U := by rw [hL]; linarith
      rw [normalize_false_eq v L U hLU] at hr
      simp only [Except.ok.injEq] at hr
      subst hr
      rw [normalize_false_eq _ _ _ hLU]
      obtain ⟨h1, h2⟩ := wrapNorm_mem v L U hL0 hU.le hLU
      rw [wrapNorm_fixed (wrapNorm v L U) L U hLU (Or.inl hL) h1 h2]
    · subst hL
      rw [normalize_true_eq] at hr
      simp only [Except.ok.injEq] at hr
      subst hr
      rw [normalize_true_eq]
      obtain ⟨h1, h2⟩ := bounceNorm_mem_symm v U hU
      rw [bounceNorm_fixed_symm (bounceNorm v (-U) U) U hU h1 h2]
  · subst hb
    subst hL
    have hLU : (0 : ℚ) < U := hU
    rw [normalize_false_eq v 0 U hLU] at hr
    simp only [Except.ok.injEq] at hr
    subst hr
    rw [normalize_false_eq _ _ _ hLU]
    obtain ⟨h1, h2⟩ := wrapNorm_mem v 0 U (le_refl 0) hU.le hLU
    rw [wrapNorm_fixed (wrapNorm v 0 U) 0 U hLU (Or.inr rfl) h1 h2]

/-- C3, witness: the idempotence theorem applied at the zero-based
wraparound range `(0, 3)` and input 5, whose normalization is 2. -/
theorem normalize_idempotent_witness :
    normalize (2 : ℚ) 0 3 false = .ok 2 :=
  normalize_idempotent 5 0 3 false (Or.inr ⟨rfl, by decide, rfl⟩) 2
    (by simp only [normalize, wrapNorm, pymod]; norm_num)

/-! ### The sexagesimal codec without range normalization -/

/-- Closed-form description of `deci2sexa` when no range is supplied:
naming each intermediate quantity of the source (sign, magnitude, the
two `divmod` splits, the rounded or truncated seconds, the two carry
steps and the zero-sign fixup) yields the returned tuple. -/
theorem deci2sexa_none_closed
    (x : ℚ) (pre : ℤ) (tr : Bool) (b ut : Bool)
    (s : ℤ) (hs : s = if x < 0 then -1 else 1)
    (d : ℚ) (hd : d = if x < 0 then |x| else x)
    (A : ℤ) (hA : A = ⌊d⌋)
    (B : ℤ) (hB : B = ⌊(d - (A : ℚ)) * 60⌋)
    (sf : ℚ) (hsf : sf = ((d - (A : ℚ)) * 60 - (B : ℚ)) * 60)
    (fp : ℚ) (hfp : fp = 10 ^ pre)
    (ssI : ℤ) (hssI : ssI = if tr then ⌊sf * fp⌋ else pyround (sf * fp))
    (m2 : ℤ) (hm2 : m2 = if (ssI : ℚ) = 60 * fp then B + 1 else B)
    (s2 : ℤ) (hs2 : s2 = if (ssI : ℚ) = 60 * fp then 0 else ssI)
    (A2 : ℤ) (hA2 : A2 = if m2 = 60 then A + 1 else A)
    (m3 : ℤ) (hm3 : m3 = if m2 = 60 then 0 else m2)
    (sg : ℤ) (hsg : sg = if (A2 : ℚ) = 0 ∧ m3 = 0 ∧ s2 = 0 then 1 else s) :
    deci2sexa x pre tr none none b ut =
      .ok (sg, (A2 : ℚ), m3, (s2 : ℚ) / fp) := by
  subst hs hd hA hB hsf hfp hssI hm2 hs2 hA2 hm3 hsg
  rfl

/-- The two carry steps of `deci2sexa` (seconds rolling over to 60,
then minutes rolling over to 60) do not change the represented value. -/
theorem deci2sexa_carry_preserves (A B ssI : ℤ) (fp : ℚ) (hfp : fp ≠ 0)
    (m2 : ℤ) (hm2 : m2 = if (ssI : ℚ) = 60 * fp then B + 1 else B)
    (s2 : ℤ) (hs2 : s2 = if (ssI : ℚ) = 60 * fp then 0 else ssI)
    (A2 : ℤ) (hA2 : A2 = if m2 = 60 then A + 1 else A)
    (m3 : ℤ) (hm3 : m3 = if m2 = 60 then 0 else m2) :
    (A2 : ℚ) + (m3 : ℚ) / 60 + ((s2 : ℚ) / fp) / 3600
      = (A : ℚ) + (B : ℚ) / 60 + ((ssI : ℚ) / fp) / 3600 := by
  by_cases hP : (ssI : ℚ) = 60 * fp
  · rw [if_pos hP] at hm2 hs2
    subst hs2
    by_cases hm : m2 = 60
    · rw [if_pos hm] at hA2 hm3
      have hB59 : B = 59 := by omega
      subst hA2 hm3 hB59 hm2
      rw [hP]
      push_cast
      field_simp
      ring
    · rw [if_neg hm] at hA2 hm3
      subst hA2 hm3 hm2
      rw [hP]
      push_cast
      field_simp
      ring
  · rw [if_neg hP] at hm2 hs2
    subst hs2
    by_cases hm : m2 = 60
    · rw [if_pos hm] at hA2 hm3
      have hB60 : B = 60 := by omega
      subst hA2 hm3 hB60 hm2
      push_cast
      ring
    · rw [if_neg hm] at hA2 hm3
      subst hA2 hm3 hm2
      ring

/-- C5 (confirmed): round-trip lossy law of the sexagesimal codec. For
every `x`, with no range normalization, composing (`sexa2deci`) the
tuple produced by decomposition (`deci2sexa`) at precision 6 with
rounding yields a value within `1e-6` of `x` (in fact within
`(1/2) * 1e-6 / 3600`: the only loss is the rounding of the sub-unit). -/
theorem compose_decompose_roundtrip (x : ℚ) :
    ∃ (s : ℤ) (h : ℚ) (m : ℤ) (ss y : ℚ),
      deci2sexa x 6 false none none false false = .ok (s, h, m, ss) ∧
      sexa2deci s h m ss false = .ok y ∧
      |y - x| ≤ 1 / 1000000 := by
  set s : ℤ := if x < 0 then -1 else 1 with hs
  set d : ℚ := if x < 0 then |x| else x with hd
  set A : ℤ := ⌊d⌋ with hA
  set B : ℤ := ⌊(d - (A : ℚ)) * 60⌋ with hB
  set sf : ℚ := ((d - (A : ℚ)) * 60 - (B : ℚ)) * 60 with hsf
  set fp : ℚ := ((10 : ℚ) ^ (6 : ℤ)) with hfp
  set ssI : ℤ := pyround (sf * fp) with hssI
  set m2 : ℤ := if (ssI : ℚ) = 60 * fp then B + 1 else B with hm2
  set s2 : ℤ := if (ssI : ℚ) = 60 * fp then 0 else ssI with hs2
  set A2 : ℤ := if m2 = 60 then A + 1 else A with hA2
  set m3 : ℤ := if m2 = 60 then 0 else m2 with hm3
  set sg : ℤ := if (A2 : ℚ) = 0 ∧ m3 = 0 ∧ s2 = 0 then 1 else s with hsg
  have hdec : deci2sexa x 6 false none none false false =
      .ok (sg, (A2 : ℚ), m3, (s2 : ℚ) / fp) :=
    deci2sexa_none_closed x 6 false false false s hs d hd A hA B hB sf hsf
      fp hfp ssI hssI m2 hm2 s2 hs2 A2 hA2 m3 hm3 sg hsg
  have hfp0 : fp ≠ 0 := by rw [hfp]; positivity
  have hs_pm : s = -1 ∨ s = 1 := by
    rw [hs]
    by_cases hx : x < 0
    · exact Or.inl (if_pos hx)
    · exact Or.inr (if_neg hx)
  have hsg_pm : sg = -1 ∨ sg = 1 := by
    rw [hsg]
    by_cases hz : (A2 : ℚ) = 0 ∧ m3 = 0 ∧ s2 = 0
    · exact Or.inr (if_pos hz)
    · rw [if_neg hz]; exact hs_pm
  -- the composed value
  set y : ℚ := ((A2 : ℚ) / 1 + (m3 : ℚ) / 60 + ((s2 : ℚ) / fp) / 3600) * (sg : ℚ)
    with hy
  have hcomp : sexa2deci sg (A2 : ℚ) m3 ((s2 : ℚ) / fp) false = .ok y := by
    simp only [sexa2deci, if_pos hsg_pm]
    rw [if_neg Bool.false_ne_true, ← hy]
  refine ⟨sg, (A2 : ℚ), m3, (s2 : ℚ) / fp, y, hdec, hcomp, ?_⟩
  -- value of the pre-carry decomposition
  have hval : (A : ℚ) + (B : ℚ) / 60 + sf / 3600 = d := by
    rw [hsf]; ring
  have hcarry : (A2 : ℚ) + (m3 : ℚ) / 60 + ((s2 : ℚ) / fp) / 3600
      = (A : ℚ) + (B : ℚ) / 60 + ((ssI : ℚ) / fp) / 3600 :=
    deci2sexa_carry_preserves A B ssI fp hfp0 m2 hm2 s2 hs2 A2 hA2 m3 hm3
  -- rounding error bound
  have hround : |(ssI : ℚ) - sf * fp| ≤ 1 / 2 := by
    rw [hssI]; exact pyround_sub_abs_le (sf * fp)
  have hfppos : (0 : ℚ) < fp := by rw [hfp]; positivity
  have hround2 : |(ssI : ℚ) / fp - sf| ≤ (1 / 2) / fp := by
    have heq : (ssI : ℚ) / fp - sf = ((ssI : ℚ) - sf * fp) / fp := by
      field_simp
      ring
    rw [heq, abs_div, abs_of_pos hfppos]
    exact (div_le_div_iff_of_pos_right hfppos).mpr hround
  -- relate x to the sign and magnitude
  have hx_eq : (s : ℚ) * d = x := by
    rw [hs, hd]
    by_cases hx : x < 0
    · rw [if_pos hx, if_pos hx, abs_of_neg hx]
      push_cast
      ring
    · rw [if_neg hx, if_neg hx]
      push_cast
      ring
  -- the zero-sign fixup cannot change the composed value
  have hysval : y = ((A2 : ℚ) + (m3 : ℚ) / 60 + ((s2 : ℚ) / fp) / 3600) * (s : ℚ) := by
    rw [hy]
    by_cases hz : (A2 : ℚ) = 0 ∧ m3 = 0 ∧ s2 = 0
    · obtain ⟨h1, h2, h3⟩ := hz
      rw [h1, h2, h3]
      push_cast
      ring
    · rw [hsg, if_neg hz]
      ring
  have habs_s : |(s : ℚ)| = 1 := by
    rcases hs_pm with h | h <;> rw [h] <;> norm_num
  have hdiff : ((A2 : ℚ) + (m3 : ℚ) / 60 + ((s2 : ℚ) / fp) / 3600) - d
      = ((ssI : ℚ) / fp - sf) / 3600 := by
    rw [hcarry, ← hval]
    ring
  have hyx : y - x = (((ssI : ℚ) / fp - sf) / 3600) * (s : ℚ) := by
    rw [hysval, ← hx_eq, ← hdiff]
    ring
  rw [hyx, abs_mul, habs_s, mul_one, abs_div, abs_of_pos (by norm_num : (0:ℚ) < 3600)]
  have hlast : |(ssI : ℚ) / fp - sf| / 3600 ≤ ((1 / 2) / fp) / 3600 := by
    exact (div_le_div_iff_of_pos_right (by norm_num)).mpr hround2
  refine le_trans hlast ?_
  rw [hfp]
  norm_num

/-- C10 (confirmed): negation antisymmetry of `deci2sexa` with no range.
For `x > 0` the decomposition of `x` carries sign `+1`; the decomposition
of `-x` has exactly the same three parts with sign `-1`, except when all
parts are zero, in which case both signs are forced to `+1`. The sign
split happens on the absolute value, so truncation acts on the magnitude
(rounds toward zero). -/
theorem deci2sexa_negation (x : ℚ) (hx : 0 < x) (pre : ℤ) (tr : Bool) :
    ∃ (h : ℚ) (m : ℤ) (ss : ℚ),
      deci2sexa x pre tr none none false false = .ok (1, h, m, ss) ∧
      deci2sexa (-x) pre tr none none false false =
        .ok ((if h = 0 ∧ m = 0 ∧ ss = 0 then 1 else -1), h, m, ss) := by
  have hxneg : ¬ x < 0 := not_lt.mpr hx.le
  have hnegx : -x < 0 := neg_lt_zero.mpr hx
  set A : ℤ := ⌊x⌋ with hA
  set B : ℤ := ⌊(x - (A : ℚ)) * 60⌋ with hB
  set sf : ℚ := ((x - (A : ℚ)) * 60 - (B : ℚ)) * 60 with hsf
  set fp : ℚ := (10 : ℚ) ^ pre with hfp
  set ssI : ℤ := if tr then ⌊sf * fp⌋ else pyround (sf * fp) with hssI
  set m2 : ℤ := if (ssI : ℚ) = 60 * fp then B + 1 else B with hm2
  set s2 : ℤ := if (ssI : ℚ) = 60 * fp then 0 else ssI with hs2
  set A2 : ℤ := if m2 = 60 then A + 1 else A with hA2
  set m3 : ℤ := if m2 = 60 then 0 else m2 with hm3
  set sgm : ℤ := if (A2 : ℚ) = 0 ∧ m3 = 0 ∧ s2 = 0 then 1 else -1 with hsgm
  have hdx : (x : ℚ) = if x < 0 then |x| else x := (if_neg hxneg).symm
  have hdn : (x : ℚ) = if -x < 0 then |(-x)| else -x := by
    rw [if_pos hnegx, abs_neg, abs_of_pos hx]
  have hdecx : deci2sexa x pre tr none none false false =
      .ok (1, (A2 : ℚ), m3, (s2 : ℚ) / fp) :=
    deci2sexa_none_closed x pre tr false false 1 (if_neg hxneg).symm x hdx
      A hA B hB sf hsf fp hfp ssI hssI m2 hm2 s2 hs2 A2 hA2 m3 hm3 1
      ((ite_self (1 : ℤ)).symm)
  have hdecn : deci2sexa (-x) pre tr none none false false =
      .ok (sgm, (A2 : ℚ), m3, (s2 : ℚ) / fp) :=
    deci2sexa_none_closed (-x) pre tr false false (-1) (if_pos hnegx).symm x hdn
      A hA B hB sf hsf fp hfp ssI hssI m2 hm2 s2 hs2 A2 hA2 m3 hm3 sgm hsgm
  refine ⟨(A2 : ℚ), m3, (s2 : ℚ) / fp, hdecx, ?_⟩
  rw [hdecn]
  have hfp0 : fp ≠ 0 := by rw [hfp]; positivity
  have hcond : ((A2 : ℚ) = 0 ∧ m3 = 0 ∧ (s2 : ℚ) / fp = 0)
      ↔ ((A2 : ℚ) = 0 ∧ m3 = 0 ∧ s2 = 0) := by
    constructor
    · rintro ⟨h1, h2, h3⟩
      refine ⟨h1, h2, ?_⟩
      rcases div_eq_zero_iff.mp h3 with h | h
      · exact_mod_cast h
      · exact absurd h hfp0
    · rintro ⟨h1, h2, h3⟩
      refine ⟨h1, h2, ?_⟩
      rw [h3]
      simp
  rw [hsgm, if_congr hcond rfl rfl]

/-- C10, witness: the antisymmetry theorem applied at `x = 1/2` with
precision 0 and rounding. -/
theorem deci2sexa_negation_witness :
    (0 : ℚ) < 1/2 ∧
    (∃ (h : ℚ) (m : ℤ) (ss : ℚ),
      deci2sexa (1/2) 0 false none none false false = .ok (1, h, m, ss) ∧
      deci2sexa (-(1/2)) 0 false none none false false =
        .ok ((if h = 0 ∧ m = 0 ∧ ss = 0 then 1 else -1), h, m, ss)) :=
  ⟨by norm_num, deci2sexa_negation (1/2) (by norm_num) 0 false⟩

/-- C4 (confirmed): carry propagation in `deci2sexa`. For
`x = 23 + 59/60 + 59.99999/3600`, rounding the seconds to 3 decimal
places yields exactly 60, which carries into the minutes and then into
the major part, giving `(1, 24, 0, 0.0)`; at 5 decimal places no carry
occurs and the full value `(1, 23, 59, 59.99999)` is returned; and with
the range `(0, 24)` and `upper_trim` set the carried major part 24 is
replaced by the lower bound, giving `(1, 0, 0, 0.0)`. -/
theorem deci2sexa_carry_propagation :
    deci2sexa (23 + 59/60 + (5999999/100000)/3600) 3 false none none false false
      = .ok (1, 24, 0, 0) ∧
    deci2sexa (23 + 59/60 + (5999999/100000)/3600) 5 false none none false false
      = .ok (1, 23, 59, 5999999/100000) ∧
    deci2sexa (23 + 59/60 + (5999999/100000)/3600) 3 false (some 0) (some 24) false true
      = .ok (1, 0, 0, 0) := by
  refine ⟨?_, ?_, ?_⟩ <;>
    (simp only [deci2sexa, normalize, wrapNorm, pymod, pyround]; norm_num)

/-- C9, counterexample: formatting the literal value `23.999997222`
named by the claim does not produce `"+24 00 00.000"`: the seconds part
of that value is `59.9899992`, which renders as `59.990`, and the
rendered string always ends with the third separator (a space by
default). The source yields `"+23 59 59.990 "`. -/
theorem fmt_angle_scenario_cex :
    fmt_angle (23999997222/1000000000) " " " " " " 3 false none none false false
      = .ok "+23 59 59.990 " ∧
    "+23 59 59.990 " ≠ "+24 00 00.000" := by
  refine ⟨?_, by decide⟩
  have h : deci2sexa (23999997222/1000000000 : ℚ) 3 false none none false false
      = .ok (1, 23, 59, 5999/100) := by
    simp only [deci2sexa, pyround]
    norm_num
  have ht3 : Int.toNat 3 = 3 := rfl
  have hp : pyround ((5999 / 100 : ℚ) * 10 ^ (3 : ℕ)) = 59990 := by
    simp only [pyround]
    norm_num
  have hf : (⌊(23 : ℚ)⌋ : ℤ) = 23 := by norm_num
  simp only [fmt_angle, h, fmtFixed, ht3, hp, hf, Except.ok.injEq]
  decide

/-- C9 (amended): the format scenario holds for the value the docstring
actually uses, `x = 23 + 59/60 + 59.99999/3600`, and with the trailing
third separator included: with no range `fmt_angle(x, precision 3)`
yields `"+24 00 00.000 "` (sign explicit, major and minor zero-padded to
2 digits, sub-part zero-padded to width precision+3 with precision
fractional digits, each part followed by its separator), and with
`lower=0`, `upper=24` and `upper_trim` set it yields
`"+00 00 00.000 "`. -/
theorem fmt_angle_scenario :
    fmt_angle (23 + 59/60 + (5999999/100000)/3600) " " " " " " 3 false
        none none false false
      = .ok "+24 00 00.000 " ∧
    fmt_angle (23 + 59/60 + (5999999/100000)/3600) " " " " " " 3 false
        (some 0) (some 24) false true
      = .ok "+00 00 00.000 " := by
  have ht3 : Int.toNat 3 = 3 := rfl
  have hp : pyround ((0 : ℚ) * 10 ^ (3 : ℕ)) = 0 := by
    simp only [pyround]
    norm_num
  constructor
  · have h : deci2sexa ((23 : ℚ) + 59/60 + (5999999/100000)/3600) 3 false
        none none false false = .ok (1, 24, 0, 0) := by
      simp only [deci2sexa, pyround]
      norm_num
    have hf : (⌊(24 : ℚ)⌋ : ℤ) = 24 := by norm_num
    simp only [fmt_angle, h, fmtFixed, ht3, hp, hf, Except.ok.injEq]
    decide
  · have hn : normalize ((23 : ℚ) + 59/60 + (5999999/100000)/3600) 0 24 false
        = .ok (23 + 59/60 + (5999999/100000)/3600) := by
      simp only [normalize, wrapNorm, pymod]
      norm_num
    have h : deci2sexa ((23 : ℚ) + 59/60 + (5999999/100000)/3600) 3 false
        (some 0) (some 24) false true = .ok (1, 0, 0, 0) := by
      simp only [deci2sexa, normalize, wrapNorm, pymod, pyround]
      norm_num
    have hf : (⌊(0 : ℚ)⌋ : ℤ) = 0 := by norm_num
    simp only [fmt_angle, hn, h, fmtFixed, ht3, hp, hf, Except.ok.injEq]
    decide

/-- C6, code-bug evidence: `DeltaAngle._setnorm` bounce-normalizes the
radian value against the degree bounds `-90` and `90`, so for a latitude
constructed from 91 degrees the stored value `d2r 91 ≈ 1.588 rad` is
inside `[-90, 90]` and is returned unchanged; read back in degrees it is
91, outside the claimed closed range `[-90, 90]` and not the claimed 89. -/
theorem deltaAngle_setnorm_no_normalization :
    DeltaAngle_setnorm (d2r 91) = .ok (d2r 91) ∧
    r2d (d2r 91) = 91 ∧ ¬((91 : ℝ) ≤ 90) := by
  refine ⟨?_, ?_, by norm_num⟩
  · have hpi3 : (3 : ℝ) < Real.pi := Real.pi_gt_three
    have hpi4 : Real.pi < 3.15 := Real.pi_lt_d2
    have hlo : -(90 : ℝ) ≤ d2r 91 := by
      simp only [d2r]
      nlinarith
    have hhi : d2r 91 ≤ 90 := by
      simp only [d2r]
      nlinarith
    simp only [DeltaAngle_setnorm]
    rw [normalize_true_eq,
        bounceNorm_fixed_symm (d2r 91) 90 (by norm_num) hlo hhi]
  · simp only [r2d, d2r]
    field_simp

/-- C7 (confirmed): separation bounds. `sep` always returns a value in
`[0, π]`: the `atan2` argument pair has a nonnegative second component
(a vector modulus), so the angle is in `[0, π]`, and the zero-snap keeps
it there; and `sep(0, 0, 0, π/2) = π/2` exactly. -/
theorem sep_bounds :
    (∀ a1 b1 a2 b2 : ℝ,
      0 ≤ sep a1 b1 a2 b2 ∧ sep a1 b1 a2 b2 ≤ Real.pi) ∧
    sep 0 0 0 (Real.pi / 2) = Real.pi / 2 := by
  constructor
  · intro a1 b1 a2 b2
    simp only [sep]
    have hc0 : 0 ≤ ((CartesianVector.from_s 1 a1 b1).cross
        (CartesianVector.from_s 1 a2 b2)).mod := Real.sqrt_nonneg _
    have harg1 : 0 ≤ atan2 (((CartesianVector.from_s 1 a1 b1).cross
        (CartesianVector.from_s 1 a2 b2)).mod)
        ((CartesianVector.from_s 1 a1 b1).dot (CartesianVector.from_s 1 a2 b2)) :=
      Complex.arg_nonneg_iff.mpr hc0
    have harg2 : atan2 (((CartesianVector.from_s 1 a1 b1).cross
        (CartesianVector.from_s 1 a2 b2)).mod)
        ((CartesianVector.from_s 1 a1 b1).dot (CartesianVector.from_s 1 a2 b2))
        ≤ Real.pi := Complex.arg_le_pi _
    by_cases hsn : |atan2 (((CartesianVector.from_s 1 a1 b1).cross
        (CartesianVector.from_s 1 a2 b2)).mod)
        ((CartesianVector.from_s 1 a1 b1).dot (CartesianVector.from_s 1 a2 b2))|
        < 1 / 10 ^ 15
    · rw [if_pos hsn]
      exact ⟨le_refl 0, Real.pi_pos.le⟩
    · rw [if_neg hsn]
      exact ⟨harg1, harg2⟩
  · have h1 : CartesianVector.from_s 1 0 0 = ⟨1, 0, 0⟩ := by
      simp [CartesianVector.from_s]
    have h2 : CartesianVector.from_s 1 0 (Real.pi / 2) = ⟨0, 0, 1⟩ := by
      simp [CartesianVector.from_s, Real.cos_pi_div_two, Real.sin_pi_div_two]
    have h3 : (CartesianVector.cross ⟨1, 0, 0⟩ ⟨0, 0, 1⟩).mod = 1 := by
      simp [CartesianVector.cross, CartesianVector.mod]
    have h4 : CartesianVector.dot ⟨1, 0, 0⟩ ⟨0, 0, 1⟩ = 0 := by
      simp [CartesianVector.dot]
    have h5 : atan2 1 0 = Real.pi / 2 := by
      have hI : (⟨0, 1⟩ : ℂ) = Complex.I := by
        apply Complex.ext <;> simp
      rw [atan2, hI, Complex.arg_I]
    simp only [sep, h1, h2, h3, h4, h5]
    rw [if_neg]
    rw [abs_of_pos (by positivity : (0 : ℝ) < Real.pi / 2), not_lt]
    nlinarith [Real.pi_gt_three]

/-- C8 (confirmed): pole bearing sentinel. Whenever the magnitude of
`cross(v1, v0)` is below the `1e-15` tolerance (the first point is the
pole), `bear` emits the warning and returns exactly `0.0` (it cannot
raise: the branch returns immediately); otherwise no warning is emitted. -/
theorem bear_pole_sentinel (a1 b1 a2 b2 : ℝ) :
    (|((CartesianVector.from_s 1 a1 b1).cross
        (CartesianVector.from_s 1 0 (d2r 90))).mod| < 1 / 10 ^ 15 →
      bear a1 b1 a2 b2 = (true, 0)) ∧
    (¬ |((CartesianVector.from_s 1 a1 b1).cross
        (CartesianVector.from_s 1 0 (d2r 90))).mod| < 1 / 10 ^ 15 →
      (bear a1 b1 a2 b2).1 = false) := by
  constructor
  · intro h
    simp only [bear]
    rw [if_pos h]
  · intro h
    simp only [bear]
    rw [if_neg h]

/-- C8, witness: the sentinel theorem applied at a first point exactly
on the north pole, `(a1, b1) = (0, π/2)`: the warning is emitted and
`0.0` returned. -/
theorem bear_pole_sentinel_witness :
    bear 0 (Real.pi / 2) 0 0 = (true, 0) := by
  apply (bear_pole_sentinel 0 (Real.pi / 2) 0 0).1
  have hd90 : d2r 90 = Real.pi / 2 := by
    rw [d2r]
    ring
  have h2 : CartesianVector.from_s 1 0 (Real.pi / 2) = ⟨0, 0, 1⟩ := by
    simp [CartesianVector.from_s, Real.cos_pi_div_two, Real.sin_pi_div_two]
  have h3 : (CartesianVector.cross ⟨0, 0, 1⟩ ⟨0, 0, 1⟩).mod = 0 := by
    simp [CartesianVector.cross, CartesianVector.mod]
  rw [hd90, h2, h3]
  norm_num

end Angles
